import Mathlib

/-!
Verification of the symbol correlation and definition-diff engine of
go-upgrade-checker.

The Go source is embedded shallowly: Go strings are Lean `String`
(sequences of characters; Go byte indexing is modelled by character
indexing, which agrees on ASCII data), Go slices are Lean lists, Go maps
are association lists with pairwise-distinct keys (Go map keys are
unique; theorems that quantify over arbitrary tables carry the
corresponding `Nodup` hypothesis), and Go map iteration is a left fold
over the association list.  Code that can panic (out-of-bounds indexing)
returns `Option`.

The repository carries two parallel implementations of the engine: the
symbol-level one (`findUsedSymbols` / `getAvailableSymbols` /
`findChangedSymbols`, file `unnamed/part_000`) and the function-level
one (`findUsedFunctions` / `getAvailableFunctions` /
`findChangedFunctions`, file `main.go`).  Both are embedded below; each
definition mirrors the Go function of the same name.
-/

/-! ## Character and string primitives (Go `strings` package) -/

/-- The backquote character, written numerically. -/
def tick : Char := Char.ofNat 96

/-- `\s` of the Go regexp package: `[\t\n\f\r ]`. -/
def isRegexSpace (c : Char) : Bool :=
  c == ' ' || c == '\t' || c == '\n' || c == '\r' || c == Char.ofNat 12

/-- ASCII white space as recognised by Go `unicode.IsSpace`
(`\t \n \v \f \r ' '`); the non-ASCII space code points are outside the
character data this model is used on. -/
def isWhiteGo (c : Char) : Bool :=
  isRegexSpace c || c == Char.ofNat 11

/-- `l` starts with `pre`. -/
def isPrefixL : List Char → List Char → Bool
  | [], _ => true
  | _ :: _, [] => false
  | a :: as, b :: bs => a == b && isPrefixL as bs

/-- `l` has `sub` as a contiguous substring (Go `strings.Contains` on
character lists). -/
def containsL : List Char → List Char → Bool
  | [], sub => sub.isEmpty
  | l@(_ :: t), sub => isPrefixL sub l || containsL t sub

/-- Go `strings.Contains`. -/
def strContains (s sub : String) : Bool :=
  containsL s.toList sub.toList

/-- Index of the first occurrence of `sub` in `l`, if any. -/
def firstIdx : List Char → List Char → Option Nat
  | [], sub => if sub.isEmpty then some 0 else none
  | l@(_ :: t), sub =>
    if isPrefixL sub l then some 0 else (firstIdx t sub).map (· + 1)

/-- Go `strings.Index`: first index of `sub` in `s`, `-1` when absent. -/
def goIndex (s sub : String) : Int :=
  match firstIdx s.toList sub.toList with
  | some n => (n : Int)
  | none => -1

/-- Split a character list on a single separator character
(Go `strings.Split` with a one-character separator). -/
def splitCh (sep : Char) : List Char → List (List Char)
  | [] => [[]]
  | c :: rest =>
    let r := splitCh sep rest
    if c == sep then [] :: r
    else
      match r with
      | h :: t => (c :: h) :: t
      | [] => [[c]]

/-- Go `strings.Split s (String.singleton sep)`. -/
def splitStr (s : String) (sep : Char) : List String :=
  (splitCh sep s.toList).map String.mk

/-- Go `strings.TrimPrefix`. -/
def trimPrefixGo (s pre : String) : String :=
  if isPrefixL pre.toList s.toList then String.mk (s.toList.drop pre.toList.length)
  else s

/-- Go `strings.TrimSuffix`. -/
def trimSuffixGo (s suf : String) : String :=
  if isPrefixL suf.toList.reverse s.toList.reverse then
    String.mk ((s.toList.reverse.drop suf.toList.length).reverse)
  else s

/-- `s` ends with `suf`. -/
def strEndsWith (s suf : String) : Bool :=
  isPrefixL suf.toList.reverse s.toList.reverse

/-- Go `strings.TrimSpace` (ASCII white space). -/
def trimSpaceGo (s : String) : String :=
  String.mk (((s.toList.dropWhile isWhiteGo).reverse.dropWhile isWhiteGo).reverse)

/-- Go `unicode.IsUpper` restricted to ASCII, the alphabet of the
declaration lines this model handles. -/
def isUpperGo (c : Char) : Bool :=
  'A' ≤ c && c ≤ 'Z'

/-- `\w` of the Go regexp package: `[0-9A-Za-z_]`. -/
def wordChar (c : Char) : Bool :=
  ('a' ≤ c && c ≤ 'z') || ('A' ≤ c && c ≤ 'Z') || ('0' ≤ c && c ≤ '9') || c == '_'

/-! ## Decoded SCIP index data (the `scip` protobuf records used) -/

/-- One occurrence record: only its raw symbol string is consumed. -/
structure Occurrence where
  symbol : String
deriving DecidableEq

/-- One declared-symbol record: the raw symbol string and the attached
documentation strings. -/
structure SymbolInformation where
  symbol : String
  documentation : List String
deriving DecidableEq

/-- One document of a decoded index. -/
structure Document where
  occurrences : List Occurrence
  symbols : List SymbolInformation
deriving DecidableEq

/-- A decoded SCIP index. -/
structure Index where
  documents : List Document
deriving DecidableEq

/-! ## Association-list model of Go maps -/

/-- `map[string][]string`. -/
abbrev SMap := List (String × List String)

/-- `map[string]string`. -/
abbrev AMap := List (String × String)

/-- Go map read: value of the first (unique) entry with the given key. -/
def lookupM {α : Type} : List (String × α) → String → Option α
  | [], _ => none
  | p :: rest, k => if p.1 = k then some p.2 else lookupM rest k

/-- Go map assignment `m[k] = v`: update in place when the key exists,
append a new entry otherwise. -/
def insertM {α : Type} : List (String × α) → String → α → List (String × α)
  | [], k, v => [(k, v)]
  | p :: rest, k, v => if p.1 = k then (k, v) :: rest else p :: insertM rest k v

/-- Go `m[k] = append(m[k], v)` (a missing key reads as the empty slice). -/
def appendS (m : SMap) (k : String) (v : String) : SMap :=
  insertM m k ((lookupM m k).getD [] ++ [v])

/-- Go `map[string]struct{}` insertion, modelled on a duplicate-free list. -/
def insertSet (l : List String) (s : String) : List String :=
  if s ∈ l then l else l ++ [s]

/-! ## The shared symbol-syntax regular expression

`extractSymbolsFromOccurrence` matches the Go pattern
``  `[^`]+`(/[^\s`]+?\.)  ``  and keeps the first (leftmost) match.
Go's regexp engine uses leftmost-first semantics: the earliest starting
position wins; `[^`]+` cannot cross a backquote, so its extent is forced;
the lazy `[^\s`]+?` takes the fewest characters, i.e. it stops at the
first `.` reachable through characters that are neither white space nor
a backquote.  The matcher below is that derived deterministic procedure. -/

/-- The lazy part `[^\s`]+?\.` : shortest non-empty run of characters
that are neither `\s` nor a backquote, followed by a literal `.`;
returns the run together with the dot. -/
def lazyCap : List Char → Option (List Char)
  | [] => none
  | c :: rest =>
    if isRegexSpace c || c == tick then none
    else if rest.head? = some '.' then some [c, '.']
    else (lazyCap rest).map (c :: ·)

/-- Scan to the first backquote and return what follows it. -/
def scanClose : List Char → Option (List Char)
  | [] => none
  | c :: rest => if c == tick then some rest else scanClose rest

/-- Try the whole pattern at exactly this position. -/
def matchAt : List Char → Option (List Char)
  | c0 :: c1 :: rest =>
    if c0 == tick && !(c1 == tick) then
      match scanClose rest with
      | some (c2 :: p) =>
        if c2 == '/' then (lazyCap p).map (fun y => '/' :: y) else none
      | _ => none
    else none
  | _ => none

/-- Leftmost match: first position where the pattern matches; returns
the capture group (the `/...\.` component). -/
def findCapture : List Char → Option (List Char)
  | [] => none
  | c :: rest =>
    match matchAt (c :: rest) with
    | some y => some y
    | none => findCapture rest

/-! ## Symbol parsing and definition extraction (`unnamed/part_000`) -/

/-- Go `determineSymbolType` (part_000): classification by substring
containment, `()` checked before `#`. -/
def determineSymbolType (symbol : String) : String :=
  if strContains symbol "()" then "function"
  else if strContains symbol "#" then "type"
  else "constant or variable"

/-- Go `extractSymbolDefinition` (part_000): the second `\n`-separated
line when at least two lines are present, `""` otherwise. -/
def extractSymbolDefinition (symbol : String) : String :=
  match splitStr symbol '\n' with
  | _ :: symbolDef :: _ => symbolDef
  | _ => ""

/-- Go `extractSymbolsFromOccurrence` (part_000): first regex match,
classified by `determineSymbolType`, then suffix punctuation trimmed
(`TrimPrefix "/"` always; `TrimSuffix "()."` for functions,
`TrimSuffix "."` otherwise). -/
def extractSymbolsFromOccurrence (symbol : String) : String × String :=
  match findCapture symbol.toList with
  | some cap =>
    let m := String.mk cap
    let symbolType := determineSymbolType m
    if symbolType = "function" then
      (trimSuffixGo (trimPrefixGo m "/") "().", symbolType)
    else if symbolType = "type" then
      (trimSuffixGo (trimPrefixGo m "/") ".", symbolType)
    else
      (trimSuffixGo (trimPrefixGo m "/") ".", symbolType)
  | none => ("", "")

/-! ## Symbol tables and correlation (`unnamed/part_000`) -/

/-- First loop of Go `findUsedSymbols` (part_000): the candidate
identities referenced by the consumer project, from its occurrences. -/
def usedOccurrenceTable (index : Index) (moduleName : String) : SMap :=
  index.documents.foldl (fun acc doc =>
    doc.occurrences.foldl (fun acc occ =>
      if strContains occ.symbol moduleName then
        let vt := extractSymbolsFromOccurrence occ.symbol
        let val := vt.1
        if val ≠ "" then
          if vt.2 = "type" then
            let field := val
            let val2 := match splitStr val '#' with | v :: _ => v | [] => ""
            let field2 := match splitStr val2 '.' with | _ :: f :: _ => f | _ => field
            appendS acc val2 field2
          else
            appendS acc val ""
        else acc
      else acc) acc) []

/-- Second loop of Go `findUsedSymbols` (part_000): identity → extracted
definitions, over the old dependency index's declared symbols. -/
def oldModuleTable (index : Index) : SMap :=
  index.documents.foldl (fun acc doc =>
    doc.symbols.foldl (fun acc sym =>
      let vt := extractSymbolsFromOccurrence sym.symbol
      let val := vt.1
      if val ≠ "" then
        match sym.documentation with
        | d0 :: _ =>
          let defn := extractSymbolDefinition d0
          if defn ≠ "" then
            if vt.2 = "type" then
              let d := match splitStr val '#' with | v :: _ => v | [] => ""
              if (splitStr val '#').length > 1 then appendS acc d defn else acc
            else appendS acc val defn
          else acc
        | [] => acc
      else acc) acc) []

/-- Body of the inner loop of the final loop of Go `findUsedSymbols`
(part_000): `if strings.Contains(j, k) { resultMap[j] = v }`. -/
def corrStep (ku : String × List String) (acc2 : SMap) (jv : String × List String) :
    SMap :=
  if strContains jv.1 ku.1 then insertM acc2 jv.1 jv.2 else acc2

/-- Final loop of Go `findUsedSymbols` (part_000): copy every old-table
entry whose identity contains a candidate identity as a substring. -/
def correlate (usedSymbols oldModuleUsedSymbols : SMap) : SMap :=
  usedSymbols.foldl (fun acc ku => oldModuleUsedSymbols.foldl (corrStep ku) acc) []

/-- Go `findUsedSymbols` (part_000), on decoded indexes. -/
def findUsedSymbols (projIndex oldIndex : Index) (moduleName : String) : SMap :=
  correlate (usedOccurrenceTable projIndex moduleName) (oldModuleTable oldIndex)

/-- Go `getAvailableSymbols` (part_000), on a decoded index; its
symbol-processing loop is textually the same as the old-module loop of
`findUsedSymbols`. -/
def getAvailableSymbols (index : Index) : SMap :=
  index.documents.foldl (fun acc doc =>
    doc.symbols.foldl (fun acc sym =>
      let vt := extractSymbolsFromOccurrence sym.symbol
      let val := vt.1
      if val ≠ "" then
        match sym.documentation with
        | d0 :: _ =>
          let defn := extractSymbolDefinition d0
          if defn ≠ "" then
            if vt.2 = "type" then
              let d := match splitStr val '#' with | v :: _ => v | [] => ""
              if (splitStr val '#').length > 1 then appendS acc d defn else acc
            else appendS acc val defn
          else acc
        | [] => acc
      else acc) acc) []

/-! ## The definition differ (`unnamed/part_000`) -/

/-- Go `difference` (part_000): items of `a` not in `b`, and items of
`b` not in `a`, each in its slice's order (the Go code materialises the
membership tests as boolean maps; the filters below are those tests). -/
def difference (a b : List String) : List String × List String :=
  (a.filter (fun item => decide (item ∉ b)),
   b.filter (fun item => decide (item ∉ a)))

/-- Tail of the per-entry loop body of Go `findChangedSymbols`
(part_000): mark `oldSymbol` as `"removed"` when no key of `newSymbols`
contains it as a substring. -/
def removalCheck (newSymbols : SMap) (added removed : AMap) (oldSymbol : String) :
    AMap × AMap :=
  let found := newSymbols.any (fun p => strContains p.1 oldSymbol)
  if found then (added, removed) else (added, insertM removed oldSymbol "removed")

/-- One iteration of the loop of Go `findChangedSymbols` (part_000) over
an old-table entry.  The `cmp.Equal`-equal case `continue`s, skipping the
removal check; the unequal case records the first elements of the two
difference slices and falls through to the removal check. -/
def diffStep (newSymbols : SMap) (acc : AMap × AMap) (e : String × List String) :
    AMap × AMap :=
  match lookupM newSymbols e.1 with
  | some newDefs =>
    if e.2 = newDefs then acc
    else
      let ab := difference e.2 newDefs
      let removed := match ab.1 with
        | x :: _ => insertM acc.2 e.1 x
        | [] => acc.2
      let added := match ab.2 with
        | x :: _ => insertM acc.1 e.1 x
        | [] => acc.1
      removalCheck newSymbols added removed e.1
  | none => removalCheck newSymbols acc.1 acc.2 e.1

/-- Go `findChangedSymbols` (part_000): `(added, removed)`. -/
def findChangedSymbols (oldSymbols newSymbols : SMap) : AMap × AMap :=
  oldSymbols.foldl (diffStep newSymbols) ([], [])

/-- The core pipeline of part_000's `main` after decoding: usage
correlation, new-table extraction, and the definition differ. -/
def runPipeline (projIndex oldIndex newIndex : Index) (moduleName : String) :
    SMap × SMap × (AMap × AMap) :=
  let usedSymbols := findUsedSymbols projIndex oldIndex moduleName
  let newSymbols := getAvailableSymbols newIndex
  (usedSymbols, newSymbols, findChangedSymbols usedSymbols newSymbols)

/-- Concrete evaluations of the embedded string primitives and the
symbol parser, pinning down the modelled semantics on small inputs. -/
theorem model_evaluations :
    strContains "abc" "bc" = true ∧
    splitStr "a\nb\nc" '\n' = ["a", "b", "c"] ∧
    extractSymbolDefinition "doc\nfunc F()" = "func F()" ∧
    extractSymbolsFromOccurrence "`x`/Foo()." = ("Foo", "function") ∧
    extractSymbolsFromOccurrence "`x`/Foo." = ("Foo", "constant or variable") ∧
    extractSymbolsFromOccurrence "no backquote" = ("", "") ∧
    findChangedSymbols [("F", ["a"])] [("F", ["b"])] = ([("F", "b")], [("F", "a")]) ∧
    findChangedSymbols [("G", ["a"])] [("H", ["b"])] = ([], [("G", "removed")]) := by
  decide

/-! ## Association-list lemmas -/

theorem lookupM_insertM {α : Type} (m : List (String × α)) (k' k : String) (v : α) :
    lookupM (insertM m k' v) k = if k' = k then some v else lookupM m k := by
  induction m with
  | nil => simp [insertM, lookupM]
  | cons p rest ih =>
    by_cases h1 : p.1 = k'
    · by_cases h2 : k' = k <;> simp [insertM, lookupM, h1, h2]
    · by_cases h2 : p.1 = k
      · have hk : ¬(k' = k) := fun h => h1 (h2.trans h.symm)
        have hk2 : ¬(k = k') := fun h => hk h.symm
        simp [insertM, lookupM, h1, h2, hk, hk2]
      · simp [insertM, lookupM, h1, h2, ih]

theorem lookupM_appendS (m : SMap) (k' k : String) (v : String) :
    lookupM (appendS m k' v) k =
      if k' = k then some ((lookupM m k').getD [] ++ [v]) else lookupM m k := by
  unfold appendS
  rw [lookupM_insertM]

theorem lookupM_mem {α : Type} {m : List (String × α)} {k : String} {v : α}
    (h : lookupM m k = some v) : (k, v) ∈ m := by
  induction m with
  | nil => simp [lookupM] at h
  | cons p rest ih =>
    by_cases hp : p.1 = k
    · simp [lookupM, hp] at h
      have hpv : (k, v) = p := by rw [← hp, ← h]
      rw [hpv]
      exact List.mem_cons_self p rest
    · simp [lookupM, hp] at h
      right
      exact ih h

theorem mem_lookupM {α : Type} {m : List (String × α)} {k : String} {v : α}
    (hnd : (m.map Prod.fst).Nodup) (h : (k, v) ∈ m) : lookupM m k = some v := by
  induction m with
  | nil => simp at h
  | cons p rest ih =>
    simp only [List.map_cons, List.nodup_cons] at hnd
    rcases List.mem_cons.mp h with h | h
    · rw [← h]
      simp [lookupM]
    · have hp : ¬(p.1 = k) := by
        intro hpk
        exact hnd.1 (by
          rw [hpk]
          exact List.mem_map.mpr ⟨(k, v), h, rfl⟩)
      simp [lookupM, hp]
      exact ih hnd.2 h

theorem isPrefixL_refl (l : List Char) : isPrefixL l l = true := by
  induction l with
  | nil => rfl
  | cons c t ih => simp [isPrefixL, ih]

theorem strContains_refl (s : String) : strContains s s = true := by
  unfold strContains
  cases h : s.toList with
  | nil => simp [containsL]
  | cons c t => simp [containsL, isPrefixL_refl]

theorem any_strContains_of_lookup {m : SMap} {k : String} {v : List String}
    (h : lookupM m k = some v) :
    m.any (fun p => strContains p.1 k) = true := by
  have hm : (k, v) ∈ m := lookupM_mem h
  rw [List.any_eq_true]
  exact ⟨(k, v), hm, by simpa using strContains_refl k⟩

/-! ## Characterization of the definition differ

`addedAt` / `removedAt` state, per old-table entry, the value the differ
leaves in `added` / `removed` for that key. -/

/-- The `added` value `findChangedSymbols` produces for a key with old
definitions `defs`. -/
def addedAt (newSymbols : SMap) (defs : List String) (k : String) : Option String :=
  match lookupM newSymbols k with
  | some nd => if defs = nd then none else (difference defs nd).2.head?
  | none => none

/-- The `removed` value `findChangedSymbols` produces for a key with old
definitions `defs`. -/
def removedAt (newSymbols : SMap) (defs : List String) (k : String) : Option String :=
  match lookupM newSymbols k with
  | some nd => if defs = nd then none else (difference defs nd).1.head?
  | none =>
    if newSymbols.any (fun p => strContains p.1 k) then none else some "removed"

theorem diffStep_lookup_other (new : SMap) (acc : AMap × AMap)
    (e : String × List String) (k : String) (h : e.1 ≠ k) :
    lookupM (diffStep new acc e).1 k = lookupM acc.1 k ∧
      lookupM (diffStep new acc e).2 k = lookupM acc.2 k := by
  unfold diffStep removalCheck
  cases hn : lookupM new e.1 with
  | none =>
    by_cases hf : new.any (fun p => strContains p.1 e.1) = true <;>
      simp [hf, lookupM_insertM, h]
  | some nd =>
    by_cases he : e.2 = nd
    · simp [he]
    · cases h1 : (difference e.2 nd).1 <;> cases h2 : (difference e.2 nd).2 <;>
        by_cases hf : new.any (fun p => strContains p.1 e.1) = true <;>
        simp [he, h1, h2, hf, lookupM_insertM, h]

theorem diffStep_lookup_self (new : SMap) (acc : AMap × AMap)
    (e : String × List String)
    (hA : lookupM acc.1 e.1 = none) (hR : lookupM acc.2 e.1 = none) :
    lookupM (diffStep new acc e).1 e.1 = addedAt new e.2 e.1 ∧
      lookupM (diffStep new acc e).2 e.1 = removedAt new e.2 e.1 := by
  unfold diffStep removalCheck addedAt removedAt
  cases hn : lookupM new e.1 with
  | none =>
    by_cases hf : new.any (fun p => strContains p.1 e.1) = true <;>
      simp [hf, lookupM_insertM, hA, hR]
  | some nd =>
    by_cases he : e.2 = nd
    · simp [he, hA, hR]
    · have hf : new.any (fun p => strContains p.1 e.1) = true :=
        any_strContains_of_lookup hn
      cases h1 : (difference e.2 nd).1 <;> cases h2 : (difference e.2 nd).2 <;>
        simp [he, h1, h2, hf, lookupM_insertM, hA, hR]

theorem foldl_diffStep_preserve (new : SMap) (l : SMap) (acc : AMap × AMap)
    (k : String) (h : ∀ e ∈ l, e.1 ≠ k) :
    lookupM (l.foldl (diffStep new) acc).1 k = lookupM acc.1 k ∧
      lookupM (l.foldl (diffStep new) acc).2 k = lookupM acc.2 k := by
  induction l generalizing acc with
  | nil => simp
  | cons e rest ih =>
    have he : e.1 ≠ k := h e (List.mem_cons_self e rest)
    have hrest : ∀ f ∈ rest, f.1 ≠ k := fun f hf => h f (List.mem_cons_of_mem e hf)
    rw [List.foldl_cons]
    have := ih (diffStep new acc e) hrest
    have hstep := diffStep_lookup_other new acc e k he
    exact ⟨this.1.trans hstep.1, this.2.trans hstep.2⟩

theorem foldl_diffStep_lookup (new : SMap) (old : SMap) (acc : AMap × AMap)
    (k : String) (hnd : (old.map Prod.fst).Nodup)
    (hA : lookupM acc.1 k = none) (hR : lookupM acc.2 k = none) :
    lookupM (old.foldl (diffStep new) acc).1 k =
        (lookupM old k).bind (fun defs => addedAt new defs k) ∧
      lookupM (old.foldl (diffStep new) acc).2 k =
        (lookupM old k).bind (fun defs => removedAt new defs k) := by
  induction old generalizing acc with
  | nil => simp [lookupM, hA, hR]
  | cons e rest ih =>
    simp only [List.map_cons, List.nodup_cons] at hnd
    rw [List.foldl_cons]
    by_cases hek : e.1 = k
    · have hrest : ∀ f ∈ rest, f.1 ≠ k := by
        intro f hf hfk
        exact hnd.1 (by
          rw [hek, ← hfk]
          exact List.mem_map.mpr ⟨f, hf, rfl⟩)
      have hpres := foldl_diffStep_preserve new rest (diffStep new acc e) k hrest
      have hself := diffStep_lookup_self new acc e (hek ▸ hA) (hek ▸ hR)
      have hlk : lookupM (e :: rest) k = some e.2 := by simp [lookupM, hek]
      rw [hlk]
      exact ⟨hpres.1.trans (hek ▸ hself.1), hpres.2.trans (hek ▸ hself.2)⟩
    · have hstep := diffStep_lookup_other new acc e k hek
      have hlk : lookupM (e :: rest) k = lookupM rest k := by simp [lookupM, hek]
      rw [hlk]
      exact ih (diffStep new acc e) hnd.2 (hstep.1.trans hA) (hstep.2.trans hR)

theorem findChanged_lookup (old new : SMap) (hnd : (old.map Prod.fst).Nodup)
    (k : String) :
    lookupM (findChangedSymbols old new).1 k =
        (lookupM old k).bind (fun defs => addedAt new defs k) ∧
      lookupM (findChangedSymbols old new).2 k =
        (lookupM old k).bind (fun defs => removedAt new defs k) := by
  unfold findChangedSymbols
  exact foldl_diffStep_lookup new old ([], []) k hnd rfl rfl

/-! ## Characterization of the usage correlator -/

theorem lookupM_isSome_iff_mem_keys {α : Type} (m : List (String × α)) (k : String) :
    (lookupM m k).isSome = true ↔ k ∈ m.map Prod.fst := by
  induction m with
  | nil => simp [lookupM]
  | cons p rest ih =>
    by_cases hp : p.1 = k
    · simp [lookupM, hp]
    · simp only [lookupM, hp, if_false, List.map_cons, List.mem_cons]
      rw [ih]
      constructor
      · exact Or.inr
      · rintro (h | h)
        · exact absurd h.symm hp
        · exact h

theorem lookupM_eq_none_of_not_mem {α : Type} {m : List (String × α)} {k : String}
    (h : k ∉ m.map Prod.fst) : lookupM m k = none := by
  cases hl : lookupM m k with
  | none => rfl
  | some v =>
    exact absurd ((lookupM_isSome_iff_mem_keys m k).mp (by simp [hl])) h

theorem foldl_corrStep_lookup (ku : String × List String) (old : SMap) (acc : SMap)
    (j : String) (hnd : (old.map Prod.fst).Nodup) :
    lookupM (old.foldl (corrStep ku) acc) j =
      if strContains j ku.1 = true ∧ (lookupM old j).isSome = true then lookupM old j
      else lookupM acc j := by
  induction old generalizing acc with
  | nil => simp [lookupM]
  | cons jv rest ih =>
    simp only [List.map_cons, List.nodup_cons] at hnd
    rw [List.foldl_cons]
    by_cases hj : jv.1 = j
    · have hrest : lookupM rest j = none :=
        lookupM_eq_none_of_not_mem (hj ▸ hnd.1)
      have hlk : lookupM (jv :: rest) j = some jv.2 := by simp [lookupM, hj]
      rw [ih (corrStep ku acc jv) hnd.2, hlk]
      unfold corrStep
      rw [hj]
      by_cases hc : strContains j ku.1 = true <;>
        simp [hc, hrest, lookupM_insertM, hj]
    · have hlk : lookupM (jv :: rest) j = lookupM rest j := by simp [lookupM, hj]
      rw [ih (corrStep ku acc jv) hnd.2, hlk]
      have hacc : lookupM (corrStep ku acc jv) j = lookupM acc j := by
        unfold corrStep
        by_cases hc : strContains jv.1 ku.1 = true <;>
          simp [hc, lookupM_insertM, hj]
      rw [hacc]

theorem correlate_lookup (used old : SMap) (hnd : (old.map Prod.fst).Nodup)
    (j : String) :
    lookupM (correlate used old) j =
      if (used.any (fun ku => strContains j ku.1)) = true ∧
          (lookupM old j).isSome = true then lookupM old j
      else none := by
  unfold correlate
  suffices h : ∀ acc : SMap,
      lookupM (used.foldl (fun acc ku => old.foldl (corrStep ku) acc) acc) j =
        if (used.any (fun ku => strContains j ku.1)) = true ∧
            (lookupM old j).isSome = true then lookupM old j
        else lookupM acc j by
    rw [h []]
    rfl
  induction used with
  | nil => intro acc; simp
  | cons ku rest ih =>
    intro acc
    rw [List.foldl_cons, ih (old.foldl (corrStep ku) acc),
      foldl_corrStep_lookup ku old acc j hnd]
    by_cases h1 : strContains j ku.1 = true <;>
      by_cases h2 : (lookupM old j).isSome = true <;>
      by_cases h3 : (rest.any (fun ku => strContains j ku.1)) = true <;>
      simp [h1, h2, h3]

/-! ## Key sets stay duplicate-free -/

theorem mem_keys_insertM {α : Type} (m : List (String × α)) (k a : String) (v : α) :
    a ∈ (insertM m k v).map Prod.fst ↔ a ∈ m.map Prod.fst ∨ a = k := by
  induction m with
  | nil => simp [insertM, eq_comm]
  | cons p rest ih =>
    by_cases hp : p.1 = k
    · subst hp
      simp [insertM, eq_comm]
      tauto
    · simp [insertM, hp, ih]
      tauto

theorem nodup_keys_insertM {α : Type} {m : List (String × α)} (k : String) (v : α)
    (h : (m.map Prod.fst).Nodup) : ((insertM m k v).map Prod.fst).Nodup := by
  induction m with
  | nil => simp [insertM]
  | cons p rest ih =>
    simp only [List.map_cons, List.nodup_cons] at h
    by_cases hp : p.1 = k
    · subst hp
      have hins : insertM (p :: rest) p.1 v = (p.1, v) :: rest := by
        simp [insertM]
      rw [hins]
      simpa [List.nodup_cons] using h
    · have hins : insertM (p :: rest) k v = p :: insertM rest k v := by
        simp [insertM, hp]
      rw [hins]
      simp only [List.map_cons, List.nodup_cons]
      refine ⟨fun hmem => ?_, ih h.2⟩
      rcases (mem_keys_insertM rest k p.1 v).mp hmem with hin | heq
      · exact h.1 hin
      · exact hp heq

theorem nodup_keys_appendS {m : SMap} (k v : String)
    (h : (m.map Prod.fst).Nodup) : ((appendS m k v).map Prod.fst).Nodup :=
  nodup_keys_insertM k _ h

theorem nodup_keys_foldl {β : Type} (f : SMap → β → SMap)
    (hf : ∀ acc b, (acc.map Prod.fst).Nodup → ((f acc b).map Prod.fst).Nodup)
    (l : List β) (acc : SMap) (h : (acc.map Prod.fst).Nodup) :
    ((l.foldl f acc).map Prod.fst).Nodup := by
  induction l generalizing acc with
  | nil => exact h
  | cons b rest ih => exact ih (f acc b) (hf acc b h)

theorem nodup_keys_usedOccurrenceTable (index : Index) (moduleName : String) :
    ((usedOccurrenceTable index moduleName).map Prod.fst).Nodup := by
  unfold usedOccurrenceTable
  refine nodup_keys_foldl _ ?_ _ _ (by simp)
  intro acc doc h
  refine nodup_keys_foldl _ ?_ _ _ h
  intro acc2 occ h2
  dsimp only
  repeat' split
  all_goals first | exact h2 | exact nodup_keys_appendS _ _ h2

theorem nodup_keys_oldModuleTable (index : Index) :
    ((oldModuleTable index).map Prod.fst).Nodup := by
  unfold oldModuleTable
  refine nodup_keys_foldl _ ?_ _ _ (by simp)
  intro acc doc h
  refine nodup_keys_foldl _ ?_ _ _ h
  intro acc2 sym h2
  dsimp only
  repeat' split
  all_goals first | exact h2 | exact nodup_keys_appendS _ _ h2

theorem nodup_keys_getAvailableSymbols (index : Index) :
    ((getAvailableSymbols index).map Prod.fst).Nodup := by
  unfold getAvailableSymbols
  refine nodup_keys_foldl _ ?_ _ _ (by simp)
  intro acc doc h
  refine nodup_keys_foldl _ ?_ _ _ h
  intro acc2 sym h2
  dsimp only
  repeat' split
  all_goals first | exact h2 | exact nodup_keys_appendS _ _ h2

theorem nodup_keys_correlate (used old : SMap) :
    ((correlate used old).map Prod.fst).Nodup := by
  unfold correlate
  refine nodup_keys_foldl _ ?_ _ _ (by simp)
  intro acc ku h
  refine nodup_keys_foldl _ ?_ _ _ h
  intro acc2 jv h2
  unfold corrStep
  split
  · exact nodup_keys_insertM _ _ h2
  · exact h2

theorem nodup_keys_findUsedSymbols (projIndex oldIndex : Index) (m : String) :
    ((findUsedSymbols projIndex oldIndex m).map Prod.fst).Nodup :=
  nodup_keys_correlate _ _

theorem lookupM_perm {α : Type} {m₁ m₂ : List (String × α)} (hp : m₁.Perm m₂)
    (hnd : (m₁.map Prod.fst).Nodup) (k : String) :
    lookupM m₁ k = lookupM m₂ k := by
  have hnd₂ : (m₂.map Prod.fst).Nodup := ((hp.map Prod.fst).nodup_iff).mp hnd
  cases h1 : lookupM m₁ k with
  | some v =>
    have h2 : lookupM m₂ k = some v :=
      mem_lookupM hnd₂ ((hp.mem_iff).mp (lookupM_mem h1))
    rw [h2]
  | none =>
    cases h2 : lookupM m₂ k with
    | none => rfl
    | some v =>
      have hm : (k, v) ∈ m₁ := (hp.mem_iff).mpr (lookupM_mem h2)
      exact absurd ((mem_lookupM hnd hm).symm.trans h1) (by simp)

/-! ## Claim C1: key-disjointness of `added` and `removed` -/

/-- C1, counterexample: for the usage record `{F ↦ [a]}` and the
new-version table `{F ↦ [b]}`, `findChangedSymbols` writes the identity
`F` into **both** maps (`added[F] = b`, `removed[F] = a`), so the two
key sets are not disjoint, contrary to the claim. -/
theorem c1_counterexample :
    "F" ∈ ((findChangedSymbols [("F", ["a"])] [("F", ["b"])]).1.map Prod.fst) ∧
      "F" ∈ ((findChangedSymbols [("F", ["a"])] [("F", ["b"])]).2.map Prod.fst) := by
  decide

/-- C1, amended: a Symbol Identity is a key of both maps returned by
`findChangedSymbols` exactly when it is a key of both input tables, its
old and new definition lists differ, and both set differences are
non-empty (the standard signature-change case); in every other case it
is a key of at most one map. -/
theorem c1_overlap_characterization (old new : SMap)
    (hnd : (old.map Prod.fst).Nodup) (k : String) :
    ((lookupM (findChangedSymbols old new).1 k).isSome = true ∧
        (lookupM (findChangedSymbols old new).2 k).isSome = true) ↔
      ∃ defs nd, lookupM old k = some defs ∧ lookupM new k = some nd ∧
        defs ≠ nd ∧ (difference defs nd).1 ≠ [] ∧ (difference defs nd).2 ≠ [] := by
  obtain ⟨hA, hR⟩ := findChanged_lookup old new hnd k
  rw [hA, hR]
  cases ho : lookupM old k with
  | none => simp
  | some defs =>
    unfold addedAt removedAt
    cases hn : lookupM new k with
    | none => simp
    | some nd =>
      by_cases he : defs = nd
      · simp [he]
      · cases h1 : (difference defs nd).1 <;> cases h2 : (difference defs nd).2 <;>
          simp [he, h1, h2]

/-- C1 witness: the amended characterization applied to the concrete
signature-change tables of the counterexample. -/
theorem c1_witness :
    (([("F", ["a"])] : SMap).map Prod.fst).Nodup ∧
      (((lookupM (findChangedSymbols [("F", ["a"])] [("F", ["b"])]).1 "F").isSome = true ∧
          (lookupM (findChangedSymbols [("F", ["a"])] [("F", ["b"])]).2 "F").isSome = true) ↔
        ∃ defs nd, lookupM ([("F", ["a"])] : SMap) "F" = some defs ∧
          lookupM ([("F", ["b"])] : SMap) "F" = some nd ∧
          defs ≠ nd ∧ (difference defs nd).1 ≠ [] ∧ (difference defs nd).2 ≠ []) :=
  ⟨by decide, c1_overlap_characterization [("F", ["a"])] [("F", ["b"])] (by decide) "F"⟩

/-! ## Claim C2: identical definition sets emit no entry -/

/-- C2: an identity present in both tables whose definition lists are
equal as sets (order- and duplicate-insensitive) appears in neither
`added` nor `removed`: equal lists take the `continue` branch, and
unequal-but-set-equal lists make both `difference` slices empty while
the removal check finds the key itself in the new table. -/
theorem c2_unchanged_sets_no_entry (old new : SMap) (k : String)
    (hnd : (old.map Prod.fst).Nodup) (defs nd : List String)
    (ho : lookupM old k = some defs) (hn : lookupM new k = some nd)
    (hset : ∀ x : String, x ∈ defs ↔ x ∈ nd) :
    lookupM (findChangedSymbols old new).1 k = none ∧
      lookupM (findChangedSymbols old new).2 k = none := by
  obtain ⟨hA, hR⟩ := findChanged_lookup old new hnd k
  rw [hA, hR, ho]
  have hd1 : (difference defs nd).1 = [] := by
    simp only [difference]
    rw [List.filter_eq_nil_iff]
    intro a ha
    simp [(hset a).mp ha]
  have hd2 : (difference defs nd).2 = [] := by
    simp only [difference]
    rw [List.filter_eq_nil_iff]
    intro a ha
    simp [(hset a).mpr ha]
  unfold addedAt removedAt
  rw [hn]
  by_cases he : defs = nd <;> simp [he, hd1, hd2]

/-- C2 witness: `{F ↦ [a, b]}` against `{F ↦ [b, a]}` — set-equal but
list-unequal definitions — emits no entry for `F`. -/
theorem c2_witness :
    lookupM (findChangedSymbols [("F", ["a", "b"])] [("F", ["b", "a"])]).1 "F" = none ∧
      lookupM (findChangedSymbols [("F", ["a", "b"])] [("F", ["b", "a"])]).2 "F" = none :=
  c2_unchanged_sets_no_entry [("F", ["a", "b"])] [("F", ["b", "a"])] "F"
    (by decide) ["a", "b"] ["b", "a"] (by decide) (by decide)
    (by intro x; simp [or_comm])

/-! ## Claim C3: total absence yields the literal `"removed"` marker -/

/-- C3: for a usage-record key that no key of the new-version table
contains as a substring, `findChangedSymbols` records
`removed[k] = "removed"`, whatever the old definition list holds. -/
theorem c3_total_absence_removed (old new : SMap) (k : String)
    (hnd : (old.map Prod.fst).Nodup) (defs : List String)
    (ho : lookupM old k = some defs)
    (habs : ∀ p ∈ new, strContains p.1 k = false) :
    lookupM (findChangedSymbols old new).2 k = some "removed" := by
  obtain ⟨-, hR⟩ := findChanged_lookup old new hnd k
  rw [hR, ho]
  have hn : lookupM new k = none := by
    cases hx : lookupM new k with
    | none => rfl
    | some v =>
      have hc := habs (k, v) (lookupM_mem hx)
      rw [strContains_refl] at hc
      simp at hc
  have hany : new.any (fun p => strContains p.1 k) = false := by
    rw [List.any_eq_false]
    intro p hp
    simp [habs p hp]
  unfold removedAt
  rw [hn]
  simp [hany]

/-- C3 witness: `G` used with definitions `[x]` and a new table whose
only key `H` does not contain `G` gives `removed[G] = "removed"`. -/
theorem c3_witness :
    lookupM (findChangedSymbols [("G", ["x"])] [("H", ["y"])]).2 "G" = some "removed" :=
  c3_total_absence_removed [("G", ["x"])] [("H", ["y"])] "G" (by decide) ["x"]
    (by decide) (by decide)

/-! ## Claim C7: changed keys record the first elements of both
difference slices -/

/-- C7: for a key in both tables with unequal definition lists, the
differ records `removed[k]` as the head of `D_old − D_new` and
`added[k]` as the head of `D_new − D_old`, each exactly when that
difference slice is non-empty (both fire simultaneously when both are
non-empty); the heads are taken in slice iteration order. -/
theorem c7_difference_heads (old new : SMap) (k : String)
    (hnd : (old.map Prod.fst).Nodup) (defs nd : List String)
    (ho : lookupM old k = some defs) (hn : lookupM new k = some nd)
    (hne : defs ≠ nd) :
    lookupM (findChangedSymbols old new).2 k = (difference defs nd).1.head? ∧
      lookupM (findChangedSymbols old new).1 k = (difference defs nd).2.head? := by
  obtain ⟨hA, hR⟩ := findChanged_lookup old new hnd k
  rw [hA, hR, ho]
  unfold addedAt removedAt
  rw [hn]
  simp [hne]

/-- C7 witness: `{C ↦ [s1]}` against `{C ↦ [s2]}`: `removed[C] = s1`
and `added[C] = s2`, the heads of the two difference slices. -/
theorem c7_witness :
    lookupM (findChangedSymbols [("C", ["s1"])] [("C", ["s2"])]).2 "C" =
        (difference ["s1"] ["s2"]).1.head? ∧
      lookupM (findChangedSymbols [("C", ["s1"])] [("C", ["s2"])]).1 "C" =
        (difference ["s1"] ["s2"]).2.head? :=
  c7_difference_heads [("C", ["s1"])] [("C", ["s2"])] "C" (by decide) ["s1"] ["s2"]
    (by decide) (by decide) (by decide)

/-! ## Claim C8: the usage correlator's copy semantics -/

/-- C8: `correlate` (the final loop of `findUsedSymbols`) keys the
result by the full old-table identity `j` and copies `j`'s old-table
definitions exactly when some candidate identity is contained in `j` as
a substring; a candidate with no containing entry contributes nothing,
and the function is total — no error is raised. -/
theorem c8_correlator_copies (used old : SMap) (j : String)
    (hnd : (old.map Prod.fst).Nodup) :
    lookupM (correlate used old) j =
      if (used.any (fun ku => strContains j ku.1)) = true ∧
          (lookupM old j).isSome = true then lookupM old j
      else none := by
  rw [correlate_lookup used old hnd j]

/-- C8 witness: the candidate `F` pulls the full identity `pkg/F` with
its definitions into the result; the unmatched candidate `Q` adds
nothing. -/
theorem c8_witness :
    (([("pkg/F", ["func F()"])] : SMap).map Prod.fst).Nodup ∧
      lookupM (correlate [("F", [""]), ("Q", [""])] [("pkg/F", ["func F()"])]) "pkg/F" =
        (if (([("F", [""]), ("Q", [""])] : SMap).any
              (fun ku => strContains "pkg/F" ku.1)) = true ∧
            (lookupM ([("pkg/F", ["func F()"])] : SMap) "pkg/F").isSome = true then
          lookupM ([("pkg/F", ["func F()"])] : SMap) "pkg/F"
        else none) :=
  ⟨by decide,
    c8_correlator_copies [("F", [""]), ("Q", [""])] [("pkg/F", ["func F()"])] "pkg/F"
      (by decide)⟩

/-! ## Claim C5: usage restriction of the diff output -/

/-- C5: every key of the diff output (of `added` or of `removed`) is a
key of the usage record, and every key of the usage record contains
some candidate identity parsed from the consumer project's occurrences
as a substring. -/
theorem c5_usage_restriction (projIndex oldIndex newIndex : Index) (m k : String)
    (h : (lookupM (findChangedSymbols (findUsedSymbols projIndex oldIndex m)
              (getAvailableSymbols newIndex)).1 k).isSome = true ∨
          (lookupM (findChangedSymbols (findUsedSymbols projIndex oldIndex m)
              (getAvailableSymbols newIndex)).2 k).isSome = true) :
    (lookupM (findUsedSymbols projIndex oldIndex m) k).isSome = true ∧
      (usedOccurrenceTable projIndex m).any (fun c => strContains k c.1) = true := by
  have hnd : ((findUsedSymbols projIndex oldIndex m).map Prod.fst).Nodup :=
    nodup_keys_findUsedSymbols projIndex oldIndex m
  obtain ⟨hA, hR⟩ :=
    findChanged_lookup (findUsedSymbols projIndex oldIndex m)
      (getAvailableSymbols newIndex) hnd k
  have hu : (lookupM (findUsedSymbols projIndex oldIndex m) k).isSome = true := by
    cases hx : lookupM (findUsedSymbols projIndex oldIndex m) k with
    | none =>
      exfalso
      rcases h with h | h
      · rw [hA, hx] at h
        simp at h
      · rw [hR, hx] at h
        simp at h
    | some defs => simp
  refine ⟨hu, ?_⟩
  have hcorr :=
    correlate_lookup (usedOccurrenceTable projIndex m) (oldModuleTable oldIndex)
      (nodup_keys_oldModuleTable oldIndex) k
  rw [show findUsedSymbols projIndex oldIndex m =
      correlate (usedOccurrenceTable projIndex m) (oldModuleTable oldIndex) from rfl,
    hcorr] at hu
  by_cases hcond : ((usedOccurrenceTable projIndex m).any
        (fun ku => strContains k ku.1)) = true ∧
      (lookupM (oldModuleTable oldIndex) k).isSome = true
  · exact hcond.1
  · rw [if_neg hcond] at hu
    simp at hu

/-- C5 witness: a consumer occurrence of `` `m`/F(). ``, an old index
declaring it with documentation `"doc\nfunc F()"`, and an empty new
index; `F` lands in `removed`, is a key of the usage record, and
contains the parsed candidate `F`. -/
theorem c5_witness :
    ((lookupM (findChangedSymbols
          (findUsedSymbols (Index.mk [Document.mk [Occurrence.mk "`m`/F()."] []])
            (Index.mk [Document.mk [] [SymbolInformation.mk "`m`/F()."
              ["doc\nfunc F()"]]]) "m")
          (getAvailableSymbols (Index.mk []))).1 "F").isSome = true ∨
      (lookupM (findChangedSymbols
          (findUsedSymbols (Index.mk [Document.mk [Occurrence.mk "`m`/F()."] []])
            (Index.mk [Document.mk [] [SymbolInformation.mk "`m`/F()."
              ["doc\nfunc F()"]]]) "m")
          (getAvailableSymbols (Index.mk []))).2 "F").isSome = true) ∧
    ((lookupM (findUsedSymbols (Index.mk [Document.mk [Occurrence.mk "`m`/F()."] []])
          (Index.mk [Document.mk [] [SymbolInformation.mk "`m`/F()."
            ["doc\nfunc F()"]]]) "m") "F").isSome = true ∧
      (usedOccurrenceTable (Index.mk [Document.mk [Occurrence.mk "`m`/F()."] []])
          "m").any (fun c => strContains "F" c.1) = true) :=
  ⟨by decide,
    c5_usage_restriction (Index.mk [Document.mk [Occurrence.mk "`m`/F()."] []])
      (Index.mk [Document.mk [] [SymbolInformation.mk "`m`/F()." ["doc\nfunc F()"]]])
      (Index.mk []) "m" "F" (by decide)⟩

/-! ## Claim C9: determinism of the core pipeline -/

/-- C9: the decoded core pipeline is a pure function — two runs on the
same decoded inputs return equal usage-record, new-table, and
diff-result maps — and the differ's output is insensitive to the
iteration order of its input tables (the one nondeterminism Go map
ranging could introduce): permuting either table leaves every lookup of
`added` and `removed` unchanged. -/
theorem c9_deterministic_pipeline (projIndex oldIndex newIndex : Index) (m k : String)
    (old₁ old₂ new₁ new₂ : SMap)
    (h₁ : (old₁.map Prod.fst).Nodup) (h₂ : (new₁.map Prod.fst).Nodup)
    (hpo : old₁.Perm old₂) (hpn : new₁.Perm new₂) :
    runPipeline projIndex oldIndex newIndex m =
        runPipeline projIndex oldIndex newIndex m ∧
      lookupM (findChangedSymbols old₁ new₁).1 k =
        lookupM (findChangedSymbols old₂ new₂).1 k ∧
      lookupM (findChangedSymbols old₁ new₁).2 k =
        lookupM (findChangedSymbols old₂ new₂).2 k := by
  have h₁' : (old₂.map Prod.fst).Nodup := ((hpo.map Prod.fst).nodup_iff).mp h₁
  obtain ⟨hA1, hR1⟩ := findChanged_lookup old₁ new₁ h₁ k
  obtain ⟨hA2, hR2⟩ := findChanged_lookup old₂ new₂ h₁' k
  have hany : ∀ p : String × List String → Bool, new₁.any p = new₂.any p := by
    intro p
    by_cases hx : new₁.any p = true
    · rw [hx]
      rcases List.any_eq_true.mp hx with ⟨a, ha, hpa⟩
      exact (List.any_eq_true.mpr ⟨a, (hpn.mem_iff).mp ha, hpa⟩).symm
    · have hx' : new₁.any p = false := by simpa using hx
      rw [hx']
      exact (List.any_eq_false.mpr (fun a ha =>
        List.any_eq_false.mp hx' a ((hpn.mem_iff).mpr ha))).symm
  have haddedAt : ∀ d, addedAt new₁ d k = addedAt new₂ d k := by
    intro d
    unfold addedAt
    rw [lookupM_perm hpn h₂ k]
  have hremovedAt : ∀ d, removedAt new₁ d k = removedAt new₂ d k := by
    intro d
    unfold removedAt
    rw [lookupM_perm hpn h₂ k, hany (fun p => strContains p.1 k)]
  refine ⟨rfl, ?_, ?_⟩
  · rw [hA1, hA2, lookupM_perm hpo h₁ k]
    cases lookupM old₂ k <;> simp [haddedAt]
  · rw [hR1, hR2, lookupM_perm hpo h₁ k]
    cases lookupM old₂ k <;> simp [hremovedAt]

/-- C9 witness: the order-insensitivity instantiated with two-entry
tables listed in the two opposite orders. -/
theorem c9_witness :
    ((([("A", ["x"]), ("B", ["y"])] : SMap).map Prod.fst).Nodup ∧
      (([("C", ["z"]), ("D", ["w"])] : SMap).map Prod.fst).Nodup ∧
      ([("A", ["x"]), ("B", ["y"])] : SMap).Perm [("B", ["y"]), ("A", ["x"])] ∧
      ([("C", ["z"]), ("D", ["w"])] : SMap).Perm [("D", ["w"]), ("C", ["z"])]) ∧
    (runPipeline (Index.mk []) (Index.mk []) (Index.mk []) "m" =
        runPipeline (Index.mk []) (Index.mk []) (Index.mk []) "m" ∧
      lookupM (findChangedSymbols [("A", ["x"]), ("B", ["y"])]
          [("C", ["z"]), ("D", ["w"])]).1 "A" =
        lookupM (findChangedSymbols [("B", ["y"]), ("A", ["x"])]
          [("D", ["w"]), ("C", ["z"])]).1 "A" ∧
      lookupM (findChangedSymbols [("A", ["x"]), ("B", ["y"])]
          [("C", ["z"]), ("D", ["w"])]).2 "A" =
        lookupM (findChangedSymbols [("B", ["y"]), ("A", ["x"])]
          [("D", ["w"]), ("C", ["z"])]).2 "A") :=
  ⟨⟨by decide, by decide, by decide, by decide⟩,
    c9_deterministic_pipeline (Index.mk []) (Index.mk []) (Index.mk []) "m" "A"
      [("A", ["x"]), ("B", ["y"])] [("B", ["y"]), ("A", ["x"])]
      [("C", ["z"]), ("D", ["w"])] [("D", ["w"]), ("C", ["z"])]
      (by decide) (by decide) (by decide) (by decide)⟩

/-! ## The function-level implementation (`main.go`) -/

/-- Name extraction of Go `extractExportedFunctionSignature` (main.go):
`funcDef[strings.Index(funcDef, "func ")+5:]`, then the first word
before `(`, space-trimmed.  When `"func "` is absent `Index` is `-1`
and the slice starts at byte 4. -/
def funcNameOf (funcDef : String) : String :=
  let afterFunc := String.mk (funcDef.toList.drop (goIndex funcDef "func " + 5).toNat)
  trimSpaceGo (match splitStr afterFunc '(' with | h :: _ => h | [] => "")

/-- The export gate of `extractExportedFunctionSignature`: the extracted
name is non-empty and its first character upper-case. -/
def exportedFirstUpper (n : String) : Bool :=
  match n.toList with
  | [] => false
  | c :: _ => isUpperGo c

/-- Go `extractExportedFunctionSignature` (main.go): the second line
when it contains `func` and the extracted name passes the export gate,
`""` otherwise. -/
def extractExportedFunctionSignature (s : String) : String :=
  match splitStr s '\n' with
  | _ :: funcDef :: _ =>
    if strContains funcDef "func" then
      if exportedFirstUpper (funcNameOf funcDef) then funcDef else ""
    else ""
  | _ => ""

/-- The regex `\w+\(\)\.` of Go `findUsedFunctions` (main.go), leftmost
match of `FindString`: at each start position a maximal run of word
characters must be followed by the literal `().`. -/
def findWordParen : List Char → Option (List Char)
  | [] => none
  | c :: rest =>
    if wordChar c then
      let run := List.takeWhile wordChar (c :: rest)
      let after := List.dropWhile wordChar (c :: rest)
      match after with
      | a :: b :: d :: _ =>
        if a == '(' && b == ')' && d == '.' then some (run ++ ['(', ')', '.'])
        else findWordParen rest
      | _ => findWordParen rest
    else findWordParen rest

/-- First loop of Go `findUsedFunctions` (main.go): function names used
by the consumer, from occurrences mentioning the module. -/
def usedFunctionsTable (index : Index) (moduleName : String) : List String :=
  index.documents.foldl (fun acc doc =>
    doc.occurrences.foldl (fun acc occ =>
      if strContains occ.symbol moduleName then
        match findWordParen occ.symbol.toList with
        | some mtch => insertSet acc (trimSuffixGo (String.mk mtch) "().")
        | none => acc
      else acc) acc) []

/-- Symbol loop of the old-module half of Go `findUsedFunctions`
(main.go): the read of `sym.Documentation[0]` is guarded by
`len(sym.Documentation) > 0`; the `none` arm models the out-of-bounds
access the guard prevents. -/
def fufOldSyms (acc : List String) : List SymbolInformation → Option (List String)
  | [] => some acc
  | sym :: rest =>
    if sym.documentation.length > 0 then
      match sym.documentation with
      | d0 :: _ => fufOldSyms (insertSet acc (extractExportedFunctionSignature d0)) rest
      | [] => none
    else fufOldSyms acc rest

/-- Document loop of the old-module half of Go `findUsedFunctions`. -/
def fufOldDocs (acc : List String) : List Document → Option (List String)
  | [] => some acc
  | doc :: rest =>
    match fufOldSyms acc doc.symbols with
    | some acc2 => fufOldDocs acc2 rest
    | none => none

/-- Go `findUsedFunctions` (main.go) on decoded indexes. -/
def findUsedFunctions (projIndex oldIndex : Index) (moduleName : String) :
    Option (List String) :=
  match fufOldDocs [] oldIndex.documents with
  | some oldModuleUsedFunctions =>
    some ((usedFunctionsTable projIndex moduleName).foldl (fun acc k =>
      oldModuleUsedFunctions.foldl (fun acc2 j =>
        if strContains j k then insertSet acc2 j else acc2) acc) [])
  | none => none

/-- Symbol loop of Go `getAvailableFunctions` (main.go): the read of
`sym.Documentation[0]` is **not** guarded; an empty documentation list
is an out-of-bounds access, modelled as `none`. -/
def gafSyms (acc : List String) : List SymbolInformation → Option (List String)
  | [] => some acc
  | sym :: rest =>
    match sym.documentation with
    | [] => none
    | d0 :: _ =>
      let funcSignature := extractExportedFunctionSignature d0
      if funcSignature = "" then gafSyms acc rest
      else gafSyms (insertSet acc funcSignature) rest

/-- Document loop of Go `getAvailableFunctions` (main.go). -/
def gafDocs (acc : List String) : List Document → Option (List String)
  | [] => some acc
  | doc :: rest =>
    match gafSyms acc doc.symbols with
    | some acc2 => gafDocs acc2 rest
    | none => none

/-- Go `getAvailableFunctions` (main.go) on a decoded index. -/
def getAvailableFunctions (index : Index) : Option (List String) :=
  gafDocs [] index.documents

/-- The embedded `extractExportedFunctionSignature` reproduces the four
test vectors of the repository's own test suite, and the `\w+\(\)\.`
matcher finds the expected leftmost match. -/
theorem model_matches_repo_tests :
    extractExportedFunctionSignature
        "// SomeFunc does something\nfunc SomeFunc(a string) error" =
      "func SomeFunc(a string) error" ∧
    extractExportedFunctionSignature
        "// someFunc does something\nfunc someFunc(a string) error" = "" ∧
    extractExportedFunctionSignature "func SomeFunc(a string) error" = "" ∧
    extractExportedFunctionSignature
        "// SomeFunc does something\nSomeFunc(a string) error" = "" ∧
    findWordParen "x F().y".toList = some "F().".toList := by
  decide

/-! ## Claim C4: the definition extractors' acceptance conditions -/

/-- C4, counterexample: `extractSymbolDefinition` (part_000, a cited
source of the claim) returns the second line `"x = 1"` verbatim even
though that line contains no declaration keyword, refuting the claimed
if-and-only-if. -/
theorem c4_counterexample :
    extractSymbolDefinition "s\nx = 1" = "x = 1" ∧
      strContains "x = 1" "func" = false ∧ ("x = 1" : String) ≠ "" := by
  decide

/-- C4, amended: the part_000 extractor `extractSymbolDefinition`
returns the second line whenever at least two lines are present, with
no keyword or capitalisation check; the main.go extractor
`extractExportedFunctionSignature` returns the second line exactly when
it contains `func` and the name extracted after `func ` (up to `(`,
space-trimmed) is non-empty with an upper-case first character; both
return `""` for inputs with fewer than two lines. -/
theorem c4_extractor_behaviors :
    (∀ s x d r, splitStr s '\n' = x :: d :: r → extractSymbolDefinition s = d) ∧
    (∀ s x d r, splitStr s '\n' = x :: d :: r →
      extractExportedFunctionSignature s =
        if strContains d "func" = true ∧ exportedFirstUpper (funcNameOf d) = true
        then d else "") ∧
    (∀ s, (splitStr s '\n').length < 2 →
      extractSymbolDefinition s = "" ∧ extractExportedFunctionSignature s = "") := by
  refine ⟨?_, ?_, ?_⟩
  · intro s x d r h
    unfold extractSymbolDefinition
    rw [h]
  · intro s x d r h
    unfold extractExportedFunctionSignature
    rw [h]
    by_cases hc : strContains d "func" = true
    · by_cases hu : exportedFirstUpper (funcNameOf d) = true <;> simp [hc, hu]
    · simp [hc]
  · intro s h
    rcases hs : splitStr s '\n' with _ | ⟨a, _ | ⟨b, t2⟩⟩
    · constructor <;>
        simp [extractSymbolDefinition, extractExportedFunctionSignature, hs]
    · constructor <;>
        simp [extractSymbolDefinition, extractExportedFunctionSignature, hs]
    · rw [hs] at h
      simp at h
      omega

/-! ## Claim C10: the unguarded `Documentation[0]` read -/

theorem fufOldSyms_isSome (l : List SymbolInformation) :
    ∀ acc, (fufOldSyms acc l).isSome = true := by
  induction l with
  | nil => intro acc; simp [fufOldSyms]
  | cons sym rest ih =>
    intro acc
    cases hd : sym.documentation with
    | nil => simp [fufOldSyms, hd, ih]
    | cons d0 ds => simp [fufOldSyms, hd, ih]

theorem fufOldDocs_isSome (docs : List Document) :
    ∀ acc, (fufOldDocs acc docs).isSome = true := by
  induction docs with
  | nil => intro acc; simp [fufOldDocs]
  | cons doc rest ih =>
    intro acc
    cases hf : fufOldSyms acc doc.symbols with
    | none =>
      have := fufOldSyms_isSome doc.symbols acc
      rw [hf] at this
      simp at this
    | some acc2 => simp [fufOldDocs, hf, ih]

theorem gafSyms_isSome (l : List SymbolInformation) :
    ∀ acc, ((gafSyms acc l).isSome = true ↔
      ∀ sym ∈ l, sym.documentation ≠ []) := by
  induction l with
  | nil => intro acc; simp [gafSyms]
  | cons sym rest ih =>
    intro acc
    cases hd : sym.documentation with
    | nil =>
      have hnone : gafSyms acc (sym :: rest) = none := by simp [gafSyms, hd]
      refine ⟨fun hfalse => ?_, fun hall => ?_⟩
      · rw [hnone] at hfalse
        simp at hfalse
      · exact absurd hd (hall sym (List.mem_cons_self _ _))
    | cons d0 ds =>
      have heq : gafSyms acc (sym :: rest) =
          if extractExportedFunctionSignature d0 = "" then gafSyms acc rest
          else gafSyms (insertSet acc (extractExportedFunctionSignature d0)) rest := by
        simp [gafSyms, hd]
      rw [heq]
      by_cases he : extractExportedFunctionSignature d0 = "" <;> simp [he, ih, hd]

theorem gafDocs_isSome (docs : List Document) :
    ∀ acc, ((gafDocs acc docs).isSome = true ↔
      ∀ doc ∈ docs, ∀ sym ∈ doc.symbols, sym.documentation ≠ []) := by
  induction docs with
  | nil => intro acc; simp [gafDocs]
  | cons doc rest ih =>
    intro acc
    cases hg : gafSyms acc doc.symbols with
    | none =>
      have hno : ¬ ∀ sym ∈ doc.symbols, sym.documentation ≠ [] := by
        intro hall
        have := (gafSyms_isSome doc.symbols acc).mpr hall
        rw [hg] at this
        simp at this
      have hnone : gafDocs acc (doc :: rest) = none := by simp [gafDocs, hg]
      refine ⟨fun hfalse => ?_, fun hall => ?_⟩
      · rw [hnone] at hfalse
        simp at hfalse
      · exact absurd (fun sym hs => hall doc (List.mem_cons_self _ _) sym hs) hno
    | some acc2 =>
      have heq : gafDocs acc (doc :: rest) = gafDocs acc2 rest := by
        simp [gafDocs, hg]
      have hdoc : ∀ sym ∈ doc.symbols, sym.documentation ≠ [] :=
        (gafSyms_isSome doc.symbols acc).mp (by rw [hg]; simp)
      rw [heq, ih acc2]
      constructor
      · intro hrest doc' hmem
        rcases List.mem_cons.mp hmem with h | h
        · exact h ▸ hdoc
        · exact hrest doc' h
      · intro hall doc' hmem
        exact hall doc' (List.mem_cons_of_mem _ hmem)

/-- C10: `getAvailableFunctions` (main.go) reads
`sym.Documentation[0]` unguarded, so it stays in bounds exactly when
every symbol of every document carries at least one documentation
string — an index with an empty documentation list makes the access
out of bounds (`none` in the model) — whereas `findUsedFunctions`
guards the same access with a length check and never goes out of
bounds, whatever the input indexes. -/
theorem c10_documentation_guard :
    (∀ index : Index, (getAvailableFunctions index).isSome = true ↔
      ∀ doc ∈ index.documents, ∀ sym ∈ doc.symbols, sym.documentation ≠ []) ∧
    (∀ projIndex oldIndex : Index, ∀ m : String,
      (findUsedFunctions projIndex oldIndex m).isSome = true) := by
  constructor
  · intro index
    exact gafDocs_isSome index.documents []
  · intro projIndex oldIndex m
    unfold findUsedFunctions
    cases hf : fufOldDocs [] oldIndex.documents with
    | none =>
      have := fufOldDocs_isSome oldIndex.documents []
      rw [hf] at this
      simp at this
    | some _ => simp

/-! ## Claim C6: suffix classification vs. the implementation -/

/-- A character that may appear in a plain (well-formed) local name:
not regex white space, and none of the punctuation the symbol grammar
uses. -/
def plainChar (c : Char) : Bool :=
  !(isRegexSpace c) && !(c == tick) && !(c == '.') && !(c == '#') &&
    !(c == '(') && !(c == ')')

/-- The claim's reading of the parser, following the spec's words:
classify the captured trailing path component **by its suffix**
(`()` → function, `#` → type, neither → constant-or-variable) and strip
the suffix punctuation to obtain the local name. -/
def specSuffixParse (component : String) : String × String :=
  let body := trimSuffixGo (trimPrefixGo component "/") "."
  if strEndsWith body "()" then (trimSuffixGo body "()", "function")
  else if strEndsWith body "#" then (trimSuffixGo body "#", "type")
  else (body, "constant or variable")

/-- The claim's reading applied to a raw descriptor string: the same
capture, then suffix classification and stripping. -/
def specParseOccurrence (symbol : String) : String × String :=
  match findCapture symbol.toList with
  | some cap => specSuffixParse (String.mk cap)
  | none => ("", "")

theorem toList_mk (l : List Char) : (String.mk l).toList = l := rfl

theorem isPrefixL_append_self (p r : List Char) : isPrefixL p (p ++ r) = true := by
  induction p with
  | nil => rfl
  | cons c t ih => simp [isPrefixL, ih]

theorem trimPrefixGo_append (pre rest : List Char) :
    trimPrefixGo (String.mk (pre ++ rest)) (String.mk pre) = String.mk rest := by
  unfold trimPrefixGo
  rw [toList_mk, toList_mk]
  simp [isPrefixL_append_self, List.drop_left]

theorem trimSuffixGo_append (name suf : List Char) :
    trimSuffixGo (String.mk (name ++ suf)) (String.mk suf) = String.mk name := by
  unfold trimSuffixGo
  rw [toList_mk, toList_mk, List.reverse_append]
  rw [if_pos (isPrefixL_append_self suf.reverse name.reverse)]
  have hlen : suf.length = suf.reverse.length := (List.length_reverse suf).symm
  rw [hlen, List.drop_left, List.reverse_reverse]

theorem containsL_nil_sub (l : List Char) : containsL l [] = true := by
  cases l <;> simp [containsL, isPrefixL]

theorem containsL_of_append (x sub y : List Char) :
    containsL (x ++ (sub ++ y)) sub = true := by
  induction x with
  | nil =>
    cases sub with
    | nil => exact containsL_nil_sub y
    | cons s st =>
      have hstep : containsL ((s :: st) ++ y) (s :: st) =
          (isPrefixL (s :: st) (s :: (st ++ y)) || containsL (st ++ y) (s :: st)) :=
        rfl
      rw [List.nil_append, hstep]
      have hpre := isPrefixL_append_self (s :: st) y
      rw [show (s :: st) ++ y = s :: (st ++ y) from rfl] at hpre
      simp [hpre]
  | cons a t ih => simp [containsL, ih]

theorem head_mem_of_containsL (l : List Char) (c : Char) (d : List Char)
    (h : containsL l (c :: d) = true) : c ∈ l := by
  induction l with
  | nil => simp [containsL] at h
  | cons x t ih =>
    rw [containsL] at h
    rcases Bool.or_eq_true_iff.mp h with h1 | h2
    · rw [isPrefixL] at h1
      have : c = x := by simpa using (Bool.and_eq_true_iff.mp h1).1
      rw [this]
      exact List.mem_cons_self x t
    · exact List.mem_cons_of_mem x (ih h2)

theorem not_containsL (l : List Char) (c : Char) (d : List Char) (h : c ∉ l) :
    containsL l (c :: d) = false := by
  cases hx : containsL l (c :: d)
  · rfl
  · exact absurd (head_mem_of_containsL l c d hx) h

theorem scanClose_append (l r : List Char) (h : ∀ c ∈ l, c ≠ tick) :
    scanClose (l ++ tick :: r) = some r := by
  induction l with
  | nil => simp [scanClose]
  | cons c t ih =>
    have hc : c ≠ tick := h c (List.mem_cons_self c t)
    simp [scanClose, hc, ih (fun x hx => h x (List.mem_cons_of_mem c hx))]

theorem lazyCap_run (ys tail : List Char) (hys : ys ≠ [])
    (h : ∀ c ∈ ys, isRegexSpace c = false ∧ c ≠ tick ∧ c ≠ '.') :
    lazyCap (ys ++ '.' :: tail) = some (ys ++ ['.']) := by
  induction ys with
  | nil => exact absurd rfl hys
  | cons c ys' ih =>
    obtain ⟨h1, h2, h3⟩ := h c (List.mem_cons_self _ _)
    cases ys' with
    | nil => simp [lazyCap, h1, h2]
    | cons z ys'' =>
      have hz : z ≠ '.' :=
        (h z (List.mem_cons_of_mem _ (List.mem_cons_self _ _))).2.2
      have hih := ih (by simp) (fun x hx => h x (List.mem_cons_of_mem _ hx))
      have hunfold : lazyCap (c :: ((z :: ys'') ++ '.' :: tail)) =
          if isRegexSpace c || c == tick then none
          else if ((z :: ys'') ++ '.' :: tail).head? = some '.' then some [c, '.']
          else (lazyCap ((z :: ys'') ++ '.' :: tail)).map (c :: ·) := rfl
      rw [show (c :: z :: ys'') ++ '.' :: tail = c :: ((z :: ys'') ++ '.' :: tail)
          from rfl, hunfold, hih]
      have hc1 : (isRegexSpace c || c == tick) = false := by simp [h1, h2]
      rw [hc1]
      have hh : ((z :: ys'') ++ '.' :: tail).head? = some z := rfl
      rw [hh]
      simp [hz]

theorem matchAt_descriptor (pkg rest : List Char) (hp1 : pkg ≠ [])
    (hp2 : ∀ c ∈ pkg, c ≠ tick) :
    matchAt (tick :: pkg ++ tick :: '/' :: rest) =
      (lazyCap rest).map (fun y => '/' :: y) := by
  cases pkg with
  | nil => exact absurd rfl hp1
  | cons p0 pkg' =>
    have h0 : p0 ≠ tick := hp2 p0 (List.mem_cons_self _ _)
    have hsc : scanClose (pkg' ++ tick :: '/' :: rest) = some ('/' :: rest) :=
      scanClose_append pkg' _ (fun c hc => hp2 c (List.mem_cons_of_mem _ hc))
    simp [matchAt, h0, hsc]

theorem findCapture_descriptor (pkg rest y : List Char) (hp1 : pkg ≠ [])
    (hp2 : ∀ c ∈ pkg, c ≠ tick) (hy : lazyCap rest = some y) :
    findCapture (tick :: pkg ++ tick :: '/' :: rest) = some ('/' :: y) := by
  have hm := matchAt_descriptor pkg rest hp1 hp2
  rw [hy] at hm
  have hstep : findCapture (tick :: pkg ++ tick :: '/' :: rest) =
      (match matchAt (tick :: pkg ++ tick :: '/' :: rest) with
       | some y => some y
       | none => findCapture (pkg ++ tick :: '/' :: rest)) := rfl
  rw [hstep, hm]
  rfl

theorem plainChar_spec {c : Char} (h : plainChar c = true) :
    isRegexSpace c = false ∧ c ≠ tick ∧ c ≠ '.' ∧ c ≠ '#' ∧ c ≠ '(' ∧ c ≠ ')' := by
  simp only [plainChar, Bool.and_eq_true, Bool.not_eq_true', beq_eq_false_iff_ne,
    ne_eq, Bool.not_eq_true] at h
  tauto

/-- C6, counterexample: for the descriptor `` `x`/Foo#. `` the code
yields local name `Foo#` — the `#` suffix punctuation is **not**
stripped — while the claimed suffix rule yields `Foo`; so the parser
does not strip the suffix punctuation as claimed. -/
theorem c6_counterexample :
    extractSymbolsFromOccurrence "`x`/Foo#." = ("Foo#", "type") ∧
      specParseOccurrence "`x`/Foo#." = ("Foo", "type") ∧
      extractSymbolsFromOccurrence "`x`/Foo#." ≠ specParseOccurrence "`x`/Foo#." := by
  decide

/-- C6, amended: classification is by substring containment (`()`
anywhere in the captured component → function, taking precedence; else
`#` anywhere → type; else constant-or-variable) and stripping removes
the leading `/` and the literal suffixes `().` (functions) or `.`
(others) when present.  On well-formed components — a non-empty plain
name followed by `()`, `#` or nothing, then `.` — this agrees with
suffix classification, except that a type's local name retains the
trailing `#`. -/
theorem c6_containment_classification (pkg name : List Char)
    (hp : pkg ≠ [] ∧ ∀ c ∈ pkg, c ≠ tick)
    (hn : name ≠ [] ∧ ∀ c ∈ name, plainChar c = true) :
    extractSymbolsFromOccurrence
        (String.mk (tick :: pkg ++ tick :: '/' :: (name ++ ['(', ')', '.']))) =
      (String.mk name, "function") ∧
    extractSymbolsFromOccurrence
        (String.mk (tick :: pkg ++ tick :: '/' :: (name ++ ['#', '.']))) =
      (String.mk (name ++ ['#']), "type") ∧
    extractSymbolsFromOccurrence
        (String.mk (tick :: pkg ++ tick :: '/' :: (name ++ ['.']))) =
      (String.mk name, "constant or variable") := by
  refine ⟨?_, ?_, ?_⟩
  · -- function: `/name().`
    have hvalid : ∀ c ∈ name ++ ['(', ')'],
        isRegexSpace c = false ∧ c ≠ tick ∧ c ≠ '.' := by
      intro c hc
      rcases List.mem_append.mp hc with hc | hc
      · obtain ⟨a1, a2, a3, -, -, -⟩ := plainChar_spec (hn.2 c hc)
        exact ⟨a1, a2, a3⟩
      · rcases List.mem_cons.mp hc with rfl | hc
        · exact ⟨by decide, by decide, by decide⟩
        · rcases List.mem_cons.mp hc with rfl | hc
          · exact ⟨by decide, by decide, by decide⟩
          · simp at hc
    have hcap : findCapture
        (String.mk (tick :: pkg ++ tick :: '/' :: (name ++ ['(', ')', '.']))).toList =
        some ('/' :: (name ++ ['(', ')', '.'])) := by
      rw [toList_mk,
        show name ++ ['(', ')', '.'] = (name ++ ['(', ')']) ++ '.' :: [] by simp]
      rw [findCapture_descriptor pkg _ _ hp.1 hp.2
        (lazyCap_run (name ++ ['(', ')']) [] (by simp) hvalid)]
    have hcontains : strContains
        (String.mk ('/' :: (name ++ ['(', ')', '.']))) "()" = true := by
      unfold strContains
      rw [toList_mk, show ("()" : String).toList = ['(', ')'] from rfl,
        show '/' :: (name ++ ['(', ')', '.']) =
          ('/' :: name) ++ (['(', ')'] ++ ['.']) by simp]
      exact containsL_of_append _ _ _
    have hty : determineSymbolType
        (String.mk ('/' :: (name ++ ['(', ')', '.']))) = "function" := by
      unfold determineSymbolType
      simp [hcontains]
    have hval : trimSuffixGo
        (trimPrefixGo (String.mk ('/' :: (name ++ ['(', ')', '.']))) "/") "()." =
        String.mk name := by
      rw [show String.mk ('/' :: (name ++ ['(', ')', '.'])) =
          String.mk (['/'] ++ (name ++ ['(', ')', '.'])) from rfl]
      rw [show ("/" : String) = String.mk ['/'] from rfl, trimPrefixGo_append]
      rw [show ("()." : String) = String.mk ['(', ')', '.'] from rfl,
        trimSuffixGo_append]
    unfold extractSymbolsFromOccurrence
    rw [hcap]
    simp [hty, hval]
  · -- type: `/name#.`
    have hvalid : ∀ c ∈ name ++ ['#'],
        isRegexSpace c = false ∧ c ≠ tick ∧ c ≠ '.' := by
      intro c hc
      rcases List.mem_append.mp hc with hc | hc
      · obtain ⟨a1, a2, a3, -, -, -⟩ := plainChar_spec (hn.2 c hc)
        exact ⟨a1, a2, a3⟩
      · rcases List.mem_cons.mp hc with rfl | hc
        · exact ⟨by decide, by decide, by decide⟩
        · simp at hc
    have hcap : findCapture
        (String.mk (tick :: pkg ++ tick :: '/' :: (name ++ ['#', '.']))).toList =
        some ('/' :: (name ++ ['#', '.'])) := by
      rw [toList_mk,
        show name ++ ['#', '.'] = (name ++ ['#']) ++ '.' :: [] by simp]
      rw [findCapture_descriptor pkg _ _ hp.1 hp.2
        (lazyCap_run (name ++ ['#']) [] (by simp) hvalid)]
    have hnopar : '(' ∉ '/' :: (name ++ ['#', '.']) := by
      intro hc
      rcases List.mem_cons.mp hc with h | h
      · exact absurd h (by decide)
      · rcases List.mem_append.mp h with h | h
        · exact (plainChar_spec (hn.2 _ h)).2.2.2.2.1 rfl
        · exact absurd h (by decide)
    have hnc : strContains
        (String.mk ('/' :: (name ++ ['#', '.']))) "()" = false := by
      unfold strContains
      rw [toList_mk, show ("()" : String).toList = ['(', ')'] from rfl]
      exact not_containsL _ _ _ hnopar
    have hhash : strContains
        (String.mk ('/' :: (name ++ ['#', '.']))) "#" = true := by
      unfold strContains
      rw [toList_mk, show ("#" : String).toList = ['#'] from rfl,
        show '/' :: (name ++ ['#', '.']) = ('/' :: name) ++ (['#'] ++ ['.']) by simp]
      exact containsL_of_append _ _ _
    have hty : determineSymbolType
        (String.mk ('/' :: (name ++ ['#', '.']))) = "type" := by
      unfold determineSymbolType
      simp [hnc, hhash]
    have hval : trimSuffixGo
        (trimPrefixGo (String.mk ('/' :: (name ++ ['#', '.']))) "/") "." =
        String.mk (name ++ ['#']) := by
      rw [show String.mk ('/' :: (name ++ ['#', '.'])) =
          String.mk (['/'] ++ (name ++ ['#', '.'])) from rfl]
      rw [show ("/" : String) = String.mk ['/'] from rfl, trimPrefixGo_append]
      rw [show String.mk (name ++ ['#', '.']) =
          String.mk ((name ++ ['#']) ++ ['.']) by simp]
      rw [show ("." : String) = String.mk ['.'] from rfl, trimSuffixGo_append]
    unfold extractSymbolsFromOccurrence
    rw [hcap]
    simp [hty, hval]
  · -- constant-or-variable: `/name.`
    have hvalid : ∀ c ∈ name, isRegexSpace c = false ∧ c ≠ tick ∧ c ≠ '.' := by
      intro c hc
      obtain ⟨a1, a2, a3, -, -, -⟩ := plainChar_spec (hn.2 c hc)
      exact ⟨a1, a2, a3⟩
    have hcap : findCapture
        (String.mk (tick :: pkg ++ tick :: '/' :: (name ++ ['.']))).toList =
        some ('/' :: (name ++ ['.'])) := by
      rw [toList_mk, show name ++ ['.'] = name ++ '.' :: [] from rfl]
      rw [findCapture_descriptor pkg _ _ hp.1 hp.2
        (lazyCap_run name [] hn.1 hvalid)]
    have hnopar : '(' ∉ '/' :: (name ++ ['.']) := by
      intro hc
      rcases List.mem_cons.mp hc with h | h
      · exact absurd h (by decide)
      · rcases List.mem_append.mp h with h | h
        · exact (plainChar_spec (hn.2 _ h)).2.2.2.2.1 rfl
        · exact absurd h (by decide)
    have hnohash : '#' ∉ '/' :: (name ++ ['.']) := by
      intro hc
      rcases List.mem_cons.mp hc with h | h
      · exact absurd h (by decide)
      · rcases List.mem_append.mp h with h | h
        · exact (plainChar_spec (hn.2 _ h)).2.2.2.1 rfl
        · exact absurd h (by decide)
    have hnc : strContains (String.mk ('/' :: (name ++ ['.']))) "()" = false := by
      unfold strContains
      rw [toList_mk, show ("()" : String).toList = ['(', ')'] from rfl]
      exact not_containsL _ _ _ hnopar
    have hnh : strContains (String.mk ('/' :: (name ++ ['.']))) "#" = false := by
      unfold strContains
      rw [toList_mk, show ("#" : String).toList = ['#'] from rfl]
      exact not_containsL _ _ _ hnohash
    have hty : determineSymbolType (String.mk ('/' :: (name ++ ['.']))) =
        "constant or variable" := by
      unfold determineSymbolType
      simp [hnc, hnh]
    have hval : trimSuffixGo
        (trimPrefixGo (String.mk ('/' :: (name ++ ['.']))) "/") "." =
        String.mk name := by
      rw [show String.mk ('/' :: (name ++ ['.'])) =
          String.mk (['/'] ++ (name ++ ['.'])) from rfl]
      rw [show ("/" : String) = String.mk ['/'] from rfl, trimPrefixGo_append]
      rw [show ("." : String) = String.mk ['.'] from rfl, trimSuffixGo_append]
    unfold extractSymbolsFromOccurrence
    rw [hcap]
    simp [hty, hval]

/-- C6 witness: the amended statement at the concrete package `x` and
name `Foo`. -/
theorem c6_witness :
    ((['x'] ≠ ([] : List Char) ∧ ∀ c ∈ ['x'], c ≠ tick) ∧
      (['F', 'o', 'o'] ≠ ([] : List Char) ∧
        ∀ c ∈ ['F', 'o', 'o'], plainChar c = true)) ∧
    (extractSymbolsFromOccurrence
        (String.mk (tick :: ['x'] ++ tick :: '/' ::
          (['F', 'o', 'o'] ++ ['(', ')', '.']))) =
      (String.mk ['F', 'o', 'o'], "function") ∧
    extractSymbolsFromOccurrence
        (String.mk (tick :: ['x'] ++ tick :: '/' ::
          (['F', 'o', 'o'] ++ ['#', '.']))) =
      (String.mk (['F', 'o', 'o'] ++ ['#']), "type") ∧
    extractSymbolsFromOccurrence
        (String.mk (tick :: ['x'] ++ tick :: '/' ::
          (['F', 'o', 'o'] ++ ['.']))) =
      (String.mk ['F', 'o', 'o'], "constant or variable")) :=
  ⟨⟨⟨by decide, by decide⟩, ⟨by decide, by decide⟩⟩,
    c6_containment_classification ['x'] ['F', 'o', 'o']
      ⟨by decide, by decide⟩ ⟨by decide, by decide⟩⟩
